import Mathlib

/-!
Shallow embedding of the `weightedset` library
(`src/weightedset/_weighted_set.py`).

Machine floats (Python `float`, IEEE-754 binary64) are embedded as the type
`Fl`: a finite value carries its exact rational magnitude, and the special
values `inf`, `-inf` and `nan` are explicit constructors.  Arithmetic on
finite values is exact rational arithmetic followed by `roundF`, which
applies the binary64 overflow threshold (magnitudes at or above `2^1024`
become infinite) and the underflow threshold (non-zero magnitudes below
`2^-1074`, the smallest positive subnormal, become `0`).  Mantissa rounding
of in-range magnitudes is not modelled; every claim below only exercises
exact arithmetic, overflow or underflow, where this model and binary64
agree.  Comparisons follow IEEE-754: `nan` is incomparable with and unequal
to everything, including itself.

Each mutating method returns `WeightedSet K × Option Err`: the second
component is `none` on normal return and `some e` when the Python code
raises; the first component is the state of `self` at that point.  In
`add`, `__imul__`, `__itruediv__` and `clamp` every `raise` happens before
any assignment to `self._weights`, so on an error the state is the
pre-call state; `update` mutates `self` in place between its per-argument
`isinstance` checks, so its error states can differ from the pre-call
state.
-/

/-- Embedded binary64 value: an exact finite rational, or a special value. -/
inductive Fl where
  | fin (q : ℚ)
  | inf
  | neginf
  | nan
deriving DecidableEq, Repr

/-- Overflow threshold of binary64, the numeral `2 ^ 1024`: magnitudes at or
above this become infinite. -/
def FMAX : ℚ := 179769313486231590772930519078902473361797697894230657273430081157732675805500963132708477322407536021120113879871393357658789768814416622492847430639474124377767893424865485276302219601246094119453082952085005768838150682342462881473913110540827237163350510684586298239947245938479716304835356329624224137216

/-- Smallest positive binary64 subnormal, `2 ^ (-1074)`: non-zero magnitudes
below this become zero. -/
def FMIN : ℚ := mkRat 1 202402253307310618352495346718917307049556649764142118356901358027430339567995346891960383701437124495187077864316811911389808737385793476867013399940738509921517424276566361364466907742093216341239767678472745068562007483424692698618103355649159556340810056512358769552333414615230502532186327508646006263307707741093494784

/-- Rational addition, computed on the numerator and denominator so that it
reduces inside the kernel; equal to `a + b` (`qadd_eq`). -/
def qadd (a b : ℚ) : ℚ := mkRat (a.num * b.den + b.num * a.den) (a.den * b.den)

/-- Rational multiplication, kernel-reducible; equal to `a * b` (`qmul_eq`). -/
def qmul (a b : ℚ) : ℚ := mkRat (a.num * b.num) (a.den * b.den)

/-- Rational division, kernel-reducible; equal to `a / b` (`qdiv_eq`). -/
def qdiv (a b : ℚ) : ℚ := Rat.divInt (a.num * b.den) (a.den * b.num)

/-- Round the exact rational result of a float operation back into the model. -/
def roundF (q : ℚ) : Fl :=
  if FMAX ≤ q then Fl.inf
  else if q ≤ -FMAX then Fl.neginf
  else if -FMIN < q ∧ q < FMIN then Fl.fin 0
  else Fl.fin q

/-- IEEE strict less-than; false whenever `nan` is involved. -/
def flt : Fl → Fl → Bool
  | Fl.nan, _ => false
  | _, Fl.nan => false
  | Fl.neginf, Fl.neginf => false
  | Fl.neginf, _ => true
  | _, Fl.neginf => false
  | Fl.inf, _ => false
  | Fl.fin _, Fl.inf => true
  | Fl.fin a, Fl.fin b => decide (a < b)

/-- IEEE equality; `nan` is unequal to everything, including itself. -/
def feq : Fl → Fl → Bool
  | Fl.fin a, Fl.fin b => decide (a = b)
  | Fl.inf, Fl.inf => true
  | Fl.neginf, Fl.neginf => true
  | _, _ => false

/-- IEEE less-or-equal. -/
def fle (a b : Fl) : Bool := flt a b || feq a b

/-- IEEE strict greater-than. -/
def fgt (a b : Fl) : Bool := flt b a

/-- IEEE greater-or-equal. -/
def fge (a b : Fl) : Bool := fle b a

/-- IEEE addition. -/
def fadd : Fl → Fl → Fl
  | Fl.nan, _ => Fl.nan
  | _, Fl.nan => Fl.nan
  | Fl.inf, Fl.neginf => Fl.nan
  | Fl.neginf, Fl.inf => Fl.nan
  | Fl.inf, _ => Fl.inf
  | _, Fl.inf => Fl.inf
  | Fl.neginf, _ => Fl.neginf
  | _, Fl.neginf => Fl.neginf
  | Fl.fin a, Fl.fin b => roundF (qadd a b)

/-- IEEE multiplication; `inf * 0 = nan`. -/
def fmul : Fl → Fl → Fl
  | Fl.nan, _ => Fl.nan
  | _, Fl.nan => Fl.nan
  | Fl.inf, Fl.inf => Fl.inf
  | Fl.inf, Fl.neginf => Fl.neginf
  | Fl.neginf, Fl.inf => Fl.neginf
  | Fl.neginf, Fl.neginf => Fl.inf
  | Fl.inf, Fl.fin b => if b = 0 then Fl.nan else if 0 < b then Fl.inf else Fl.neginf
  | Fl.fin a, Fl.inf => if a = 0 then Fl.nan else if 0 < a then Fl.inf else Fl.neginf
  | Fl.neginf, Fl.fin b => if b = 0 then Fl.nan else if 0 < b then Fl.neginf else Fl.inf
  | Fl.fin a, Fl.neginf => if a = 0 then Fl.nan else if 0 < a then Fl.neginf else Fl.inf
  | Fl.fin a, Fl.fin b => roundF (qmul a b)

/-- IEEE division.  The finite-by-zero case is never reached by the library:
`__itruediv__` rejects a zero divisor before dividing (Python itself would
raise `ZeroDivisionError` there); it is mapped to `nan` as an arbitrary
unreachable value. -/
def fdiv : Fl → Fl → Fl
  | Fl.nan, _ => Fl.nan
  | _, Fl.nan => Fl.nan
  | Fl.inf, Fl.inf => Fl.nan
  | Fl.inf, Fl.neginf => Fl.nan
  | Fl.neginf, Fl.inf => Fl.nan
  | Fl.neginf, Fl.neginf => Fl.nan
  | Fl.inf, Fl.fin b => if 0 ≤ b then Fl.inf else Fl.neginf
  | Fl.neginf, Fl.fin b => if 0 ≤ b then Fl.neginf else Fl.inf
  | Fl.fin _, Fl.inf => Fl.fin 0
  | Fl.fin _, Fl.neginf => Fl.fin 0
  | Fl.fin a, Fl.fin b => if b = 0 then Fl.nan else roundF (qdiv a b)

/-- A value the model can only receive from a real binary64 float: finite
magnitudes are zero or lie within the subnormal-to-overflow range. -/
def validF : Fl → Bool
  | Fl.fin q => decide (q = 0 ∨ (FMIN ≤ q ∧ q < FMAX) ∨ (q ≤ -FMIN ∧ -FMAX < q))
  | _ => true

/-- `math.isfinite`. -/
def isFiniteF : Fl → Bool
  | Fl.fin _ => true
  | _ => false

/-- A strictly positive finite value. -/
def isPosFin : Fl → Bool
  | Fl.fin q => decide (0 < q)
  | _ => false

/-- Error kinds raised by the library (`ValueError`, `ZeroDivisionError`,
`OverflowError`, `TypeError`, `KeyError`). -/
inductive Err where
  | invalidArgument
  | divisionByZero
  | overflow
  | typeMismatch
  | keyNotFound
deriving DecidableEq, Repr

/-- The `WeightedSet` class: its `_weights` dict, embedded as an
insertion-ordered association list with (invariantly) unique keys. -/
structure WeightedSet (K : Type) where
  weights : List (K × Fl)
deriving DecidableEq, Repr

variable {K : Type} [DecidableEq K]

/-- Dictionary lookup on the association list (first, and invariantly only,
entry for the key). -/
def lookupW : List (K × Fl) → K → Option Fl
  | [], _ => none
  | (k', w) :: rest, k => if k' = k then some w else lookupW rest k

/-- `WeightedSet.__contains__`: membership in `self._weights`. -/
def WeightedSet.contains (ws : WeightedSet K) (k : K) : Bool :=
  (lookupW ws.weights k).isSome

/-- `WeightedSet.__getitem__`: the stored weight; `none` models `KeyError`. -/
def WeightedSet.getitem (ws : WeightedSet K) (k : K) : Option Fl :=
  lookupW ws.weights k

/-- `self._weights[key] += weight` on the entry for `key`, keeping its
position, as a Python dict update does. -/
def bumpW : List (K × Fl) → K → Fl → List (K × Fl)
  | [], _, _ => []
  | (k', w') :: rest, k, w =>
      if k' = k then (k', fadd w' w) :: rest else (k', w') :: bumpW rest k w

/-- `WeightedSet.add`: reject negative weights, ignore zero weights,
accumulate into an existing key or append a new one. -/
def WeightedSet.add (ws : WeightedSet K) (k : K) (w : Fl) : WeightedSet K × Option Err :=
  if flt w (Fl.fin 0) then (ws, some Err.invalidArgument)
  else if feq w (Fl.fin 0) then (ws, none)
  else if ws.contains k then (⟨bumpW ws.weights k w⟩, none)
  else (⟨ws.weights ++ [(k, w)]⟩, none)

/-- The shared loop body of `__imul__` and `__itruediv__`, building the local
`scaled_weights` dict: a scaled weight equal to `0` is skipped, and the test
`new_weight in (math.inf, math.nan)` is an `==`-based membership, so it
matches `inf` but can never match an actual NaN (IEEE `nan != nan`); a NaN
result is stored. -/
def scaleList (op : Fl → Fl → Fl) (s : Fl) : List (K × Fl) → Except Err (List (K × Fl))
  | [] => Except.ok []
  | (k, w) :: rest =>
      let nw := op w s
      if feq nw (Fl.fin 0) then scaleList op s rest
      else if feq nw Fl.inf || feq nw Fl.nan then Except.error Err.overflow
      else (scaleList op s rest).map (fun r => (k, nw) :: r)

/-- `WeightedSet.__imul__` (`scale_by`): the assignment
`self._weights = scaled_weights` happens only after the whole loop, so a
raise leaves `self` at the pre-call state. -/
def WeightedSet.imul (ws : WeightedSet K) (scale : Fl) : WeightedSet K × Option Err :=
  if flt scale (Fl.fin 0) then (ws, some Err.invalidArgument)
  else
    match scaleList fmul scale ws.weights with
    | Except.error e => (ws, some e)
    | Except.ok l => (⟨l⟩, none)

/-- `WeightedSet.__itruediv__` (`scale_by_inverse`): a zero divisor raises
`ZeroDivisionError` before the negativity check; commit-after-loop as in
`__imul__`. -/
def WeightedSet.itruediv (ws : WeightedSet K) (scale : Fl) : WeightedSet K × Option Err :=
  if feq scale (Fl.fin 0) then (ws, some Err.divisionByZero)
  else if flt scale (Fl.fin 0) then (ws, some Err.invalidArgument)
  else
    match scaleList fdiv scale ws.weights with
    | Except.error e => (ws, some e)
    | Except.ok l => (⟨l⟩, none)

/-- One entry of `clamp`: weights strictly above the limit are set to it. -/
def clampEntry (limit : Fl) (p : K × Fl) : K × Fl :=
  if fgt p.2 limit then (p.1, limit) else p

/-- `WeightedSet.clamp`: rejects a zero or negative limit, then caps each
oversize weight at `limit` (positions preserved, as in the dict updates). -/
def WeightedSet.clamp (ws : WeightedSet K) (limit : Fl) : WeightedSet K × Option Err :=
  if feq limit (Fl.fin 0) then (ws, some Err.invalidArgument)
  else if flt limit (Fl.fin 0) then (ws, some Err.invalidArgument)
  else (⟨ws.weights.map (clampEntry limit)⟩, none)

/-- `WeightedSet.copy`: a new instance with the same mapping. -/
def WeightedSet.copy (ws : WeightedSet K) : WeightedSet K :=
  ⟨ws.weights⟩

/-- Stable insertion of an earlier element into an already descending-sorted
list of later elements: it goes before the first entry of equal-or-smaller
weight. -/
def insertDesc (x : K × Fl) : List (K × Fl) → List (K × Fl)
  | [] => [x]
  | y :: ys => if fge x.2 y.2 then x :: y :: ys else y :: insertDesc x ys

/-- Stable descending-by-weight sort of the insertion-ordered entries;
extensionally the `sorted(self._weights.items(), key=itemgetter(1),
reverse=True)` of the source (Python's sort is also stable). -/
def sortDesc : List (K × Fl) → List (K × Fl)
  | [] => []
  | x :: xs => insertDesc x (sortDesc xs)

/-- `WeightedSet.keys`: keys ordered by descending weight. -/
def WeightedSet.keys (ws : WeightedSet K) : List K :=
  (sortDesc ws.weights).map Prod.fst

/-- `WeightedSet.max_weight`: `max(self._weights.values(), default=0)`. -/
def WeightedSet.max_weight (ws : WeightedSet K) : Fl :=
  ws.weights.foldl (fun m p => if fgt p.2 m then p.2 else m) (Fl.fin 0)

/-- An argument passed to `update`: either an actual `WeightedSet` or any
other object (whose only observable behavior is failing the
`isinstance` check). -/
inductive UpdArg (K : Type) where
  | ws (o : WeightedSet K)
  | notWeightedSet

/-- The inner loop of `update` for one other set: `for key in ws.keys():
self.add(key, ws[key])`.  The `keyNotFound` branch is unreachable when the
key list comes from `ws.keys()`. -/
def mergeLoop : WeightedSet K → WeightedSet K → List K → WeightedSet K × Option Err
  | s, _, [] => (s, none)
  | s, o, k :: ks =>
      match o.getitem k with
      | none => (s, some Err.keyNotFound)
      | some w =>
          match s.add k w with
          | (s', none) => mergeLoop s' o ks
          | (s', some e) => (s', some e)

/-- Merge one other `WeightedSet` into `self`. -/
def mergeFrom (s o : WeightedSet K) : WeightedSet K × Option Err :=
  mergeLoop s o o.keys

/-- `WeightedSet.update`: each argument is `isinstance`-checked just before
being merged, so arguments before a non-`WeightedSet` have already been
merged into `self` when the `TypeError` is raised. -/
def WeightedSet.update : WeightedSet K → List (UpdArg K) → WeightedSet K × Option Err
  | s, [] => (s, none)
  | s, UpdArg.notWeightedSet :: _ => (s, some Err.typeMismatch)
  | s, UpdArg.ws o :: rest =>
      match mergeFrom s o with
      | (s', none) => WeightedSet.update s' rest
      | (s', some e) => (s', some e)

/-- The loop of `a.update(a)`: the argument aliases `self`, so the key list
is the snapshot `a.keys()` computed once, while `ws[key]` reads the live
mapping. -/
def selfLoop : WeightedSet K → List K → WeightedSet K × Option Err
  | s, [] => (s, none)
  | s, k :: ks =>
      match s.getitem k with
      | none => (s, some Err.keyNotFound)
      | some w =>
          match s.add k w with
          | (s', none) => selfLoop s' ks
          | (s', some e) => (s', some e)

/-- `a.update(a)`, the self-merge. -/
def updateSelf (a : WeightedSet K) : WeightedSet K × Option Err :=
  selfLoop a a.keys

/-- Invariant I1 of the spec, as stated there: every stored weight is a
strictly positive finite value (and a representable binary64 magnitude). -/
def I1W (ws : WeightedSet K) : Prop :=
  ∀ p ∈ ws.weights, isPosFin p.2 = true ∧ validF p.2 = true

/-- Invariant I2: one entry per key. -/
def KeysNodup (ws : WeightedSet K) : Prop :=
  (ws.weights.map Prod.fst).Nodup

/-- The positivity part of invariant I1: no stored weight compares `≤ 0`
(so each weight is a positive finite value, `inf`, or `nan`). -/
def PosInv (ws : WeightedSet K) : Prop :=
  ∀ p ∈ ws.weights, fle p.2 (Fl.fin 0) = false ∧ validF p.2 = true

instance (ws : WeightedSet K) : Decidable (I1W ws) := by
  unfold I1W
  infer_instance

instance (ws : WeightedSet K) : Decidable (KeysNodup ws) := by
  unfold KeysNodup
  infer_instance

/-- States reachable from empty construction by the public operations, with
every float argument an actual machine float (`validF`); the sets passed to
`update` are themselves reachable. -/
inductive Reach : WeightedSet K → Prop where
  | empty : Reach ⟨[]⟩
  | add : ∀ {s : WeightedSet K} (k : K) (w : Fl),
      Reach s → validF w = true → Reach (s.add k w).1
  | imul : ∀ {s : WeightedSet K} (c : Fl),
      Reach s → validF c = true → Reach (s.imul c).1
  | itruediv : ∀ {s : WeightedSet K} (c : Fl),
      Reach s → validF c = true → Reach (s.itruediv c).1
  | clamp : ∀ {s : WeightedSet K} (c : Fl),
      Reach s → validF c = true → Reach (s.clamp c).1
  | copy : ∀ {s : WeightedSet K}, Reach s → Reach s.copy
  | update : ∀ {s : WeightedSet K} (args : List (UpdArg K)),
      Reach s → (∀ o : WeightedSet K, UpdArg.ws o ∈ args → Reach o) →
      Reach (s.update args).1

/-- The Python literal `1e200`, embedded as its exact decimal value `10^200`.
The actual binary64 double nearest to `1e200` differs from this by less than
one unit in the last place; the overflow and underflow behaviour exercised by
the spec scenarios (crossing `2^1024` or `2^-1074` by hundreds of orders of
magnitude) is identical for the two values. -/
def lit1e200 : ℚ := 100000000000000000000000000000000000000000000000000000000000000000000000000000000000000000000000000000000000000000000000000000000000000000000000000000000000000000000000000000000000000000000000000000000

/-- The Python literal `1e-200`, embedded as `10^(-200)`; see `lit1e200`. -/
def lit1em200 : ℚ := mkRat 1 100000000000000000000000000000000000000000000000000000000000000000000000000000000000000000000000000000000000000000000000000000000000000000000000000000000000000000000000000000000000000000000000000000000

/-! Correspondence of the kernel-reducible rational operations with the
field operations of `ℚ`, and basic facts about the thresholds. -/

theorem qadd_eq (a b : ℚ) : qadd a b = a + b := by
  rw [qadd, Rat.mkRat_eq_div]
  have ha : (a.den : ℚ) ≠ 0 := by exact_mod_cast a.den_nz
  have hb : (b.den : ℚ) ≠ 0 := by exact_mod_cast b.den_nz
  conv_rhs => rw [← Rat.num_div_den a, ← Rat.num_div_den b]
  push_cast
  field_simp

theorem qmul_eq (a b : ℚ) : qmul a b = a * b := by
  rw [qmul, Rat.mkRat_eq_div]
  have ha : (a.den : ℚ) ≠ 0 := by exact_mod_cast a.den_nz
  have hb : (b.den : ℚ) ≠ 0 := by exact_mod_cast b.den_nz
  conv_rhs => rw [← Rat.num_div_den a, ← Rat.num_div_den b]
  push_cast
  rw [div_mul_div_comm]

theorem qdiv_eq (a b : ℚ) : qdiv a b = a / b := by
  rw [qdiv, Rat.divInt_eq_div]
  by_cases hbz : b = 0
  · subst hbz; simp
  · have ha : (a.den : ℚ) ≠ 0 := by exact_mod_cast a.den_nz
    have hbn : (b.num : ℚ) ≠ 0 := by exact_mod_cast Rat.num_ne_zero.mpr hbz
    have hbd : (b.den : ℚ) ≠ 0 := by exact_mod_cast b.den_nz
    conv_rhs => rw [← Rat.num_div_den a, ← Rat.num_div_den b]
    push_cast
    rw [div_div_div_eq]

theorem FMIN_pos : 0 < FMIN := by decide

theorem FMAX_pos : 0 < FMAX := by decide

theorem FMIN_lt_FMAX : FMIN < FMAX := by decide

/-! Characterisations of `roundF`. -/

theorem roundF_ne_nan (q : ℚ) : roundF q ≠ Fl.nan := by
  unfold roundF
  split
  · intro h; cases h
  · split
    · intro h; cases h
    · split
      · intro h; cases h
      · intro h; cases h

theorem roundF_valid (q : ℚ) : validF (roundF q) = true := by
  unfold roundF
  split
  · rfl
  · split
    · rfl
    · split
      · simp [validF]
      · rename_i h1 h2 h3
        simp only [validF, decide_eq_true_eq]
        rcases lt_trichotomy q 0 with hq | hq | hq
        · right; right
          exact ⟨not_lt.mp (fun hc => h3 ⟨hc, by linarith [FMIN_pos]⟩), not_le.mp h2⟩
        · exact Or.inl hq
        · right; left
          exact ⟨not_lt.mp (fun hc => h3 ⟨by linarith [FMIN_pos], hc⟩), not_le.mp h1⟩

theorem roundF_eq_self {q : ℚ} (hv : validF (Fl.fin q) = true) : roundF q = Fl.fin q := by
  simp only [validF, decide_eq_true_eq] at hv
  unfold roundF
  rcases hv with hq | ⟨h1, h2⟩ | ⟨h1, h2⟩
  · subst hq
    rw [if_neg (by linarith [FMAX_pos]), if_neg (by linarith [FMAX_pos]),
      if_pos ⟨by linarith [FMIN_pos], FMIN_pos⟩]
  · rw [if_neg (not_le.mpr h2), if_neg (by linarith [FMAX_pos, FMIN_pos]),
      if_neg (by rintro ⟨-, hc⟩; linarith)]
  · rw [if_neg (by linarith [FMAX_pos, FMIN_pos]), if_neg (not_le.mpr (by linarith)),
      if_neg (by rintro ⟨hc, -⟩; linarith)]

theorem roundF_pos_cases {q : ℚ} (hq : 0 < q) :
    roundF q = Fl.inf ∨ roundF q = Fl.fin 0 ∨
      (roundF q = Fl.fin q ∧ FMIN ≤ q ∧ q < FMAX) := by
  unfold roundF
  split
  · exact Or.inl rfl
  · rename_i h1
    rw [if_neg (by linarith [FMAX_pos])]
    split
    · exact Or.inr (Or.inl rfl)
    · rename_i h3
      right; right
      refine ⟨rfl, ?_, not_le.mp h1⟩
      by_contra hc
      exact h3 ⟨by linarith [FMIN_pos], not_le.mp hc⟩

theorem roundF_min_le {q : ℚ} (h : FMIN ≤ q) :
    roundF q = Fl.inf ∨ (roundF q = Fl.fin q ∧ FMIN ≤ q ∧ q < FMAX) := by
  rcases roundF_pos_cases (lt_of_lt_of_le FMIN_pos h) with h1 | h1 | h1
  · exact Or.inl h1
  · exfalso
    unfold roundF at h1
    split at h1
    · cases h1
    · split at h1
      · cases h1
      · split at h1
        · rename_i hc
          linarith [hc.2]
        · rename_i hq0
          rw [Fl.fin.injEq] at h1
          linarith [FMIN_pos]
  · exact Or.inr h1

/-! Characterisations of the IEEE comparisons against zero. -/

theorem flt_irrefl (a : Fl) : flt a a = false := by
  cases a <;> simp [flt]

theorem fle_zero_false_char {w : Fl} (h : fle w (Fl.fin 0) = false) :
    w = Fl.nan ∨ w = Fl.inf ∨ ∃ q, w = Fl.fin q ∧ 0 < q := by
  cases w with
  | fin q =>
      right; right
      refine ⟨q, rfl, ?_⟩
      simp only [fle, flt, feq, Bool.or_eq_false_iff, decide_eq_false_iff_not] at h
      exact lt_of_le_of_ne (not_lt.mp h.1) (Ne.symm h.2)
  | inf => exact Or.inr (Or.inl rfl)
  | neginf => simp [fle, flt] at h
  | nan => exact Or.inl rfl

theorem flt_zero_false_char {c : Fl} (h : flt c (Fl.fin 0) = false) :
    c = Fl.nan ∨ c = Fl.inf ∨ ∃ q, c = Fl.fin q ∧ 0 ≤ q := by
  cases c with
  | fin q =>
      right; right
      refine ⟨q, rfl, ?_⟩
      simp only [flt, decide_eq_false_iff_not] at h
      exact not_lt.mp h
  | inf => exact Or.inr (Or.inl rfl)
  | neginf => simp [flt] at h
  | nan => exact Or.inl rfl

theorem div_guard_char {c : Fl} (h0 : feq c (Fl.fin 0) = false)
    (h1 : flt c (Fl.fin 0) = false) :
    c = Fl.nan ∨ c = Fl.inf ∨ ∃ q, c = Fl.fin q ∧ 0 < q := by
  rcases flt_zero_false_char h1 with h | h | ⟨q, rfl, hq⟩
  · exact Or.inl h
  · exact Or.inr (Or.inl h)
  · right; right
    refine ⟨q, rfl, ?_⟩
    simp only [feq, decide_eq_false_iff_not] at h0
    exact lt_of_le_of_ne hq (Ne.symm h0)

theorem fge_zero_char {s : Fl} (h : fge s (Fl.fin 0) = true) :
    s = Fl.inf ∨ ∃ q, s = Fl.fin q ∧ 0 ≤ q := by
  cases s with
  | fin q =>
      right
      refine ⟨q, rfl, ?_⟩
      simp only [fge, fle, flt, feq, Bool.or_eq_true, decide_eq_true_eq] at h
      rcases h with h | h
      · exact h.le
      · exact h.le
  | inf => exact Or.inl rfl
  | neginf => simp [fge, fle, flt, feq] at h
  | nan => simp [fge, fle, flt, feq] at h

theorem fgt_zero_char {s : Fl} (h : fgt s (Fl.fin 0) = true) :
    s = Fl.inf ∨ ∃ q, s = Fl.fin q ∧ 0 < q := by
  cases s with
  | fin q =>
      right
      refine ⟨q, rfl, ?_⟩
      simp only [fgt, flt, decide_eq_true_eq] at h
      exact h
  | inf => exact Or.inl rfl
  | neginf => simp [fgt, flt] at h
  | nan => simp [fgt, flt] at h

theorem fle_zero_of_pos {q : ℚ} (hq : 0 < q) : fle (Fl.fin q) (Fl.fin 0) = false := by
  simp only [fle, flt, feq, Bool.or_eq_false_iff, decide_eq_false_iff_not]
  exact ⟨not_lt.mpr hq.le, ne_of_gt hq⟩

theorem posfin_fle_zero {w : Fl} (h : isPosFin w = true) : fle w (Fl.fin 0) = false := by
  cases w with
  | fin q =>
      simp only [isPosFin, decide_eq_true_eq] at h
      exact fle_zero_of_pos h
  | inf => simp [isPosFin] at h
  | neginf => simp [isPosFin] at h
  | nan => simp [isPosFin] at h

theorem fle_zero_nan : fle Fl.nan (Fl.fin 0) = false := by rfl

theorem fle_zero_inf : fle Fl.inf (Fl.fin 0) = false := by rfl

/-! Behaviour of the float operations on the values the invariant allows. -/

theorem fadd_pos_valid {a b : Fl}
    (ha : fle a (Fl.fin 0) = false) (hva : validF a = true)
    (hb : fle b (Fl.fin 0) = false) (hvb : validF b = true) :
    fle (fadd a b) (Fl.fin 0) = false ∧ validF (fadd a b) = true := by
  rcases fle_zero_false_char ha with rfl | rfl | ⟨qa, rfl, hqa⟩ <;>
    rcases fle_zero_false_char hb with rfl | rfl | ⟨qb, rfl, hqb⟩ <;>
      simp only [fadd, fle_zero_nan, fle_zero_inf, validF, and_self, true_and] <;>
        try exact ⟨rfl, rfl⟩
  · -- both finite and positive
    have hmin : FMIN ≤ qa := by
      simp only [validF, decide_eq_true_eq] at hva
      rcases hva with h | h | h
      · exact absurd h (ne_of_gt hqa)
      · exact h.1
      · linarith [FMIN_pos, h.1]
    have hsum : FMIN ≤ qadd qa qb := by
      rw [qadd_eq]; linarith
    rcases roundF_min_le hsum with h | ⟨h, hrange⟩
    · rw [h]; exact ⟨rfl, rfl⟩
    · rw [h]
      constructor
      · exact fle_zero_of_pos (by rw [qadd_eq]; linarith)
      · rw [← h]; exact roundF_valid _

theorem fmul_inv {w c : Fl}
    (hw : fle w (Fl.fin 0) = false) (hvw : validF w = true)
    (hc : flt c (Fl.fin 0) = false) :
    fmul w c = Fl.nan ∨ fmul w c = Fl.inf ∨ fmul w c = Fl.fin 0 ∨
      (fle (fmul w c) (Fl.fin 0) = false ∧ validF (fmul w c) = true) := by
  rcases fle_zero_false_char hw with rfl | rfl | ⟨qa, rfl, hqa⟩ <;>
    rcases flt_zero_false_char hc with rfl | rfl | ⟨qc, rfl, hqc⟩
  · exact Or.inl rfl
  · exact Or.inl rfl
  · exact Or.inl rfl
  · exact Or.inl rfl
  · exact Or.inr (Or.inl rfl)
  · -- inf * fin qc
    simp only [fmul]
    rcases eq_or_lt_of_le hqc with hq0 | hq0
    · rw [if_pos hq0.symm]; exact Or.inl rfl
    · rw [if_neg (ne_of_gt hq0), if_pos hq0]; exact Or.inr (Or.inl rfl)
  · exact Or.inl rfl
  · -- fin qa * inf
    simp only [fmul]
    rw [if_neg (ne_of_gt hqa), if_pos hqa]
    exact Or.inr (Or.inl rfl)
  · -- fin * fin
    simp only [fmul]
    rcases eq_or_lt_of_le hqc with hq0 | hq0
    · right; right; left
      rw [← hq0, qmul_eq, mul_zero]
      rw [show roundF 0 = Fl.fin 0 from roundF_eq_self (by simp [validF])]
    · have hprod : 0 < qmul qa qc := by rw [qmul_eq]; positivity
      rcases roundF_pos_cases hprod with h | h | ⟨h, hmin, hmax⟩
      · rw [h]; exact Or.inr (Or.inl rfl)
      · rw [h]; exact Or.inr (Or.inr (Or.inl rfl))
      · right; right; right
        rw [h]
        exact ⟨fle_zero_of_pos hprod, by rw [← h]; exact roundF_valid _⟩

theorem fdiv_inv {w c : Fl}
    (hw : fle w (Fl.fin 0) = false) (hvw : validF w = true)
    (hc0 : feq c (Fl.fin 0) = false) (hc1 : flt c (Fl.fin 0) = false) :
    fdiv w c = Fl.nan ∨ fdiv w c = Fl.inf ∨ fdiv w c = Fl.fin 0 ∨
      (fle (fdiv w c) (Fl.fin 0) = false ∧ validF (fdiv w c) = true) := by
  rcases fle_zero_false_char hw with rfl | rfl | ⟨qa, rfl, hqa⟩ <;>
    rcases div_guard_char hc0 hc1 with rfl | rfl | ⟨qc, rfl, hqc⟩
  · exact Or.inl rfl
  · exact Or.inl rfl
  · exact Or.inl rfl
  · exact Or.inl rfl
  · exact Or.inl rfl
  · -- inf / fin qc
    simp only [fdiv]
    rw [if_pos hqc.le]
    exact Or.inr (Or.inl rfl)
  · exact Or.inl rfl
  · -- fin qa / inf
    exact Or.inr (Or.inr (Or.inl rfl))
  · -- fin / fin
    simp only [fdiv]
    rw [if_neg (ne_of_gt hqc)]
    have hquot : 0 < qdiv qa qc := by rw [qdiv_eq]; positivity
    rcases roundF_pos_cases hquot with h | h | ⟨h, hmin, hmax⟩
    · rw [h]; exact Or.inr (Or.inl rfl)
    · rw [h]; exact Or.inr (Or.inr (Or.inl rfl))
    · right; right; right
      rw [h]
      exact ⟨fle_zero_of_pos hquot, by rw [← h]; exact roundF_valid _⟩

theorem fmul_pos_ne_nan {qa : ℚ} (hqa : 0 < qa) {s : Fl}
    (hs : fge s (Fl.fin 0) = true) : fmul (Fl.fin qa) s ≠ Fl.nan := by
  rcases fge_zero_char hs with rfl | ⟨qc, rfl, _⟩
  · simp only [fmul]
    rw [if_neg (ne_of_gt hqa), if_pos hqa]
    intro h; cases h
  · simp only [fmul]
    exact roundF_ne_nan _

theorem fdiv_pos_ne_nan {qa : ℚ} (hqa : 0 < qa) {s : Fl}
    (hs : fgt s (Fl.fin 0) = true) : fdiv (Fl.fin qa) s ≠ Fl.nan := by
  rcases fgt_zero_char hs with rfl | ⟨qc, rfl, hqc⟩
  · simp only [fdiv]
    intro h; cases h
  · simp only [fdiv]
    rw [if_neg (ne_of_gt hqc)]
    exact roundF_ne_nan _

/-! Lookup lemmas for the association list. -/

theorem lookupW_mem {l : List (K × Fl)} {k : K} {w : Fl}
    (h : lookupW l k = some w) : (k, w) ∈ l := by
  induction l with
  | nil => cases h
  | cons p rest ih =>
      obtain ⟨k', w'⟩ := p
      by_cases hk : k' = k
      · subst hk
        rw [lookupW, if_pos rfl] at h
        cases h
        exact List.mem_cons_self _ _
      · rw [lookupW, if_neg hk] at h
        exact List.mem_cons_of_mem _ (ih h)

theorem lookupW_isSome_iff {l : List (K × Fl)} {k : K} :
    (lookupW l k).isSome = true ↔ k ∈ l.map Prod.fst := by
  induction l with
  | nil => simp [lookupW]
  | cons p rest ih =>
      obtain ⟨k', w'⟩ := p
      by_cases hk : k' = k
      · subst hk
        simp [lookupW]
      · rw [lookupW, if_neg hk]
        simp only [List.map_cons, List.mem_cons]
        rw [ih]
        constructor
        · exact Or.inr
        · rintro (h | h)
          · exact absurd h.symm hk
          · exact h

theorem lookupW_eq_none_iff {l : List (K × Fl)} {k : K} :
    lookupW l k = none ↔ k ∉ l.map Prod.fst := by
  rw [← lookupW_isSome_iff]
  cases lookupW l k <;> simp

theorem lookupW_isSome_of_mem {l : List (K × Fl)} {k : K}
    (h : k ∈ l.map Prod.fst) : ∃ w, lookupW l k = some w := by
  have := lookupW_isSome_iff.mpr h
  cases hl : lookupW l k
  · rw [hl] at this; cases this
  · exact ⟨_, rfl⟩

theorem lookupW_append_self {l : List (K × Fl)} {k : K} {w : Fl}
    (h : lookupW l k = none) : lookupW (l ++ [(k, w)]) k = some w := by
  induction l with
  | nil => simp [lookupW]
  | cons p rest ih =>
      obtain ⟨k', w'⟩ := p
      by_cases hk : k' = k
      · rw [lookupW, if_pos hk] at h; cases h
      · rw [lookupW, if_neg hk] at h
        rw [List.cons_append, lookupW, if_neg hk]
        exact ih h

theorem lookupW_bumpW_self {l : List (K × Fl)} {k : K} {w0 : Fl}
    (h : lookupW l k = some w0) (w : Fl) :
    lookupW (bumpW l k w) k = some (fadd w0 w) := by
  induction l with
  | nil => cases h
  | cons p rest ih =>
      obtain ⟨k', w'⟩ := p
      by_cases hk : k' = k
      · subst hk
        rw [lookupW, if_pos rfl] at h
        cases h
        rw [bumpW, if_pos rfl, lookupW, if_pos rfl]
      · rw [lookupW, if_neg hk] at h
        rw [bumpW, if_neg hk, lookupW, if_neg hk]
        exact ih h

theorem lookupW_bumpW_ne {l : List (K × Fl)} {k k' : K} (hne : k' ≠ k) (w : Fl) :
    lookupW (bumpW l k w) k' = lookupW l k' := by
  induction l with
  | nil => rfl
  | cons p rest ih =>
      obtain ⟨k0, w0⟩ := p
      by_cases hk : k0 = k
      · have h' : ¬ (k0 = k') := fun h => hne (h.symm.trans hk)
        rw [bumpW, if_pos hk, lookupW, if_neg h', lookupW, if_neg h']
      · rw [bumpW, if_neg hk, lookupW, lookupW]
        by_cases hk' : k0 = k'
        · rw [if_pos hk', if_pos hk']
        · rw [if_neg hk', if_neg hk']
          exact ih

theorem mem_bumpW {l : List (K × Fl)} {k : K} {w : Fl} {p : K × Fl}
    (h : p ∈ bumpW l k w) :
    p ∈ l ∨ ∃ k0 w0, (k0, w0) ∈ l ∧ p = (k0, fadd w0 w) := by
  induction l with
  | nil => cases h
  | cons q rest ih =>
      obtain ⟨k0, w0⟩ := q
      by_cases hk : k0 = k
      · rw [bumpW, if_pos hk] at h
        rcases List.mem_cons.mp h with rfl | h
        · exact Or.inr ⟨k0, w0, List.mem_cons_self _ _, rfl⟩
        · exact Or.inl (List.mem_cons_of_mem _ h)
      · rw [bumpW, if_neg hk] at h
        rcases List.mem_cons.mp h with rfl | h
        · exact Or.inl (List.mem_cons_self _ _)
        · rcases ih h with h | ⟨k1, w1, hmem, rfl⟩
          · exact Or.inl (List.mem_cons_of_mem _ h)
          · exact Or.inr ⟨k1, w1, List.mem_cons_of_mem _ hmem, rfl⟩

/-! Lemmas about the shared scaling loop. -/

theorem scaleList_ok_elim {op : Fl → Fl → Fl} {s : Fl} {k : K} {w : Fl}
    {rest : List (K × Fl)} {l' : List (K × Fl)}
    (hz : feq (op w s) (Fl.fin 0) = false)
    (hov : (feq (op w s) Fl.inf || feq (op w s) Fl.nan) = false)
    (hok : scaleList op s ((k, w) :: rest) = Except.ok l') :
    ∃ r, scaleList op s rest = Except.ok r ∧ l' = (k, op w s) :: r := by
  rw [scaleList] at hok
  simp only [hz, Bool.false_eq_true, if_false, hov, if_false] at hok
  cases hr : scaleList op s rest with
  | error e => rw [hr] at hok; cases hok
  | ok r =>
      rw [hr] at hok
      simp only [Except.map] at hok
      cases hok
      exact ⟨r, rfl, rfl⟩

theorem scaleList_mem_inv {op : Fl → Fl → Fl} {c : Fl} {l l' : List (K × Fl)}
    (hop : ∀ w, fle w (Fl.fin 0) = false → validF w = true →
      op w c = Fl.nan ∨ op w c = Fl.inf ∨ op w c = Fl.fin 0 ∨
        (fle (op w c) (Fl.fin 0) = false ∧ validF (op w c) = true))
    (hl : ∀ p ∈ l, fle p.2 (Fl.fin 0) = false ∧ validF p.2 = true)
    (hok : scaleList op c l = Except.ok l') :
    ∀ p ∈ l', fle p.2 (Fl.fin 0) = false ∧ validF p.2 = true := by
  induction l generalizing l' with
  | nil =>
      rw [scaleList] at hok
      cases hok
      intro p hp; cases hp
  | cons q rest ih =>
      obtain ⟨k, w⟩ := q
      have hw := hl (k, w) (List.mem_cons_self _ _)
      have hrest : ∀ p ∈ rest, fle p.2 (Fl.fin 0) = false ∧ validF p.2 = true :=
        fun p hp => hl p (List.mem_cons_of_mem _ hp)
      rw [scaleList] at hok
      by_cases hz : feq (op w c) (Fl.fin 0) = true
      · rw [if_pos hz] at hok
        exact ih hrest hok
      · rw [if_neg hz] at hok
        by_cases hov : (feq (op w c) Fl.inf || feq (op w c) Fl.nan) = true
        · rw [if_pos hov] at hok; cases hok
        · rw [if_neg hov] at hok
          cases hr : scaleList op c rest with
          | error e => rw [hr] at hok; cases hok
          | ok r =>
              rw [hr] at hok
              simp only [Except.map] at hok
              cases hok
              intro p hp
              rcases List.mem_cons.mp hp with rfl | hp
              · rcases hop w hw.1 hw.2 with hnan | hinf | h0 | hgood
                · rw [hnan]
                  exact ⟨rfl, rfl⟩
                · exfalso
                  rw [hinf] at hov
                  simp [feq] at hov
                · exfalso
                  rw [h0] at hz
                  simp [feq] at hz
                · exact hgood
              · exact ih hrest hr p hp

theorem scaleList_keys_sub {op : Fl → Fl → Fl} {c : Fl} {l l' : List (K × Fl)}
    (hok : scaleList op c l = Except.ok l') :
    ∀ p ∈ l', p.1 ∈ l.map Prod.fst := by
  induction l generalizing l' with
  | nil =>
      rw [scaleList] at hok
      cases hok
      intro p hp; cases hp
  | cons q rest ih =>
      obtain ⟨k, w⟩ := q
      rw [scaleList] at hok
      by_cases hz : feq (op w c) (Fl.fin 0) = true
      · rw [if_pos hz] at hok
        intro p hp
        exact List.mem_cons_of_mem _ (ih hok p hp)
      · rw [if_neg hz] at hok
        by_cases hov : (feq (op w c) Fl.inf || feq (op w c) Fl.nan) = true
        · rw [if_pos hov] at hok; cases hok
        · rw [if_neg hov] at hok
          cases hr : scaleList op c rest with
          | error e => rw [hr] at hok; cases hok
          | ok r =>
              rw [hr] at hok
              simp only [Except.map] at hok
              cases hok
              intro p hp
              rcases List.mem_cons.mp hp with rfl | hp
              · exact List.mem_cons_self _ _
              · exact List.mem_cons_of_mem _ (ih hr p hp)

theorem scaleList_err {op : Fl → Fl → Fl} {c : Fl} {l : List (K × Fl)}
    (hnn : ∀ p ∈ l, op p.2 c ≠ Fl.nan)
    (hw : ∃ p ∈ l, op p.2 c = Fl.inf ∨ op p.2 c = Fl.nan) :
    scaleList op c l = Except.error Err.overflow := by
  induction l with
  | nil =>
      obtain ⟨p, hp, -⟩ := hw
      cases hp
  | cons q rest ih =>
      obtain ⟨k, w⟩ := q
      by_cases hinf : op w c = Fl.inf
      · rw [scaleList]
        rw [if_neg (by rw [hinf]; simp [feq])]
        rw [if_pos (by rw [hinf]; simp [feq])]
      · have hwrest : ∃ p ∈ rest, op p.2 c = Fl.inf ∨ op p.2 c = Fl.nan := by
          obtain ⟨p, hp, hor⟩ := hw
          rcases List.mem_cons.mp hp with rfl | hp
          · rcases hor with h | h
            · exact absurd h hinf
            · exact absurd h (hnn (k, w) (List.mem_cons_self _ _))
          · exact ⟨p, hp, hor⟩
        have ihr := ih (fun p hp => hnn p (List.mem_cons_of_mem _ hp)) hwrest
        rw [scaleList]
        by_cases hz : feq (op w c) (Fl.fin 0) = true
        · rw [if_pos hz]
          exact ihr
        · rw [if_neg hz]
          have hov : (feq (op w c) Fl.inf || feq (op w c) Fl.nan) = false := by
            cases hval : op w c <;> simp_all [feq]
          rw [if_neg (by rw [hov]; intro h; cases h)]
          rw [ihr]
          rfl

theorem scaleList_all_zero {op : Fl → Fl → Fl} {c : Fl} {l : List (K × Fl)}
    (hl : ∀ p ∈ l, feq (op p.2 c) (Fl.fin 0) = true) :
    scaleList op c l = Except.ok [] := by
  induction l with
  | nil => rfl
  | cons q rest ih =>
      obtain ⟨k, w⟩ := q
      rw [scaleList, if_pos (hl (k, w) (List.mem_cons_self _ _))]
      exact ih (fun p hp => hl p (List.mem_cons_of_mem _ hp))

theorem scaleList_removes_zero {op : Fl → Fl → Fl} {c : Fl} {l l' : List (K × Fl)}
    {k : K} {w : Fl}
    (hnd : (l.map Prod.fst).Nodup)
    (hlk : lookupW l k = some w)
    (hz : feq (op w c) (Fl.fin 0) = true)
    (hok : scaleList op c l = Except.ok l') :
    lookupW l' k = none := by
  induction l generalizing l' with
  | nil => cases hlk
  | cons q rest ih =>
      obtain ⟨k0, w0⟩ := q
      simp only [List.map_cons, List.nodup_cons] at hnd
      by_cases hk : k0 = k
      · subst hk
        rw [lookupW, if_pos rfl] at hlk
        cases hlk
        rw [scaleList, if_pos hz] at hok
        rw [lookupW_eq_none_iff]
        intro hmem
        rcases List.mem_map.mp hmem with ⟨p, hp, hfst⟩
        exact hnd.1 (hfst ▸ scaleList_keys_sub hok p hp)
      · rw [lookupW, if_neg hk] at hlk
        rw [scaleList] at hok
        by_cases hz0 : feq (op w0 c) (Fl.fin 0) = true
        · rw [if_pos hz0] at hok
          exact ih hnd.2 hlk hok
        · rw [if_neg hz0] at hok
          by_cases hov : (feq (op w0 c) Fl.inf || feq (op w0 c) Fl.nan) = true
          · rw [if_pos hov] at hok; cases hok
          · rw [if_neg hov] at hok
            cases hr : scaleList op c rest with
            | error e => rw [hr] at hok; cases hok
            | ok r =>
                rw [hr] at hok
                simp only [Except.map] at hok
                cases hok
                rw [lookupW, if_neg hk]
                exact ih hnd.2 hlk hr

/-! Preservation of the positivity invariant by every public operation. -/

theorem add_posinv {s : WeightedSet K} (hs : PosInv s) (k : K) {w : Fl}
    (hv : validF w = true) : PosInv (s.add k w).1 := by
  rw [WeightedSet.add]
  by_cases hneg : flt w (Fl.fin 0) = true
  · rw [if_pos hneg]; exact hs
  · rw [if_neg hneg]
    by_cases hzero : feq w (Fl.fin 0) = true
    · rw [if_pos hzero]; exact hs
    · rw [if_neg hzero]
      have hwle : fle w (Fl.fin 0) = false := by
        rw [fle, Bool.or_eq_false_iff]
        exact ⟨Bool.not_eq_true _ ▸ hneg |> Bool.of_not_eq_true,
          Bool.not_eq_true _ ▸ hzero |> Bool.of_not_eq_true⟩
      by_cases hc : s.contains k = true
      · rw [if_pos hc]
        intro p hp
        rcases mem_bumpW hp with hp | ⟨k0, w0, hmem, rfl⟩
        · exact hs p hp
        · exact fadd_pos_valid (hs (k0, w0) hmem).1 (hs (k0, w0) hmem).2 hwle hv
      · rw [if_neg hc]
        intro p hp
        rcases List.mem_append.mp hp with hp | hp
        · exact hs p hp
        · rcases List.mem_singleton.mp hp with rfl
          exact ⟨hwle, hv⟩

theorem imul_posinv {s : WeightedSet K} (hs : PosInv s) (c : Fl) :
    PosInv (s.imul c).1 := by
  rw [WeightedSet.imul]
  by_cases hneg : flt c (Fl.fin 0) = true
  · rw [if_pos hneg]; exact hs
  · rw [if_neg hneg]
    cases hsc : scaleList fmul c s.weights with
    | error e => exact hs
    | ok l =>
        intro p hp
        exact scaleList_mem_inv
          (fun w hw hvw => fmul_inv hw hvw (Bool.not_eq_true _ ▸ hneg |> Bool.of_not_eq_true))
          hs hsc p hp

theorem itruediv_posinv {s : WeightedSet K} (hs : PosInv s) (c : Fl) :
    PosInv (s.itruediv c).1 := by
  rw [WeightedSet.itruediv]
  by_cases hz : feq c (Fl.fin 0) = true
  · rw [if_pos hz]; exact hs
  · rw [if_neg hz]
    by_cases hneg : flt c (Fl.fin 0) = true
    · rw [if_pos hneg]; exact hs
    · rw [if_neg hneg]
      cases hsc : scaleList fdiv c s.weights with
      | error e => exact hs
      | ok l =>
          intro p hp
          exact scaleList_mem_inv
            (fun w hw hvw => fdiv_inv hw hvw
              (Bool.not_eq_true _ ▸ hz |> Bool.of_not_eq_true)
              (Bool.not_eq_true _ ▸ hneg |> Bool.of_not_eq_true))
            hs hsc p hp

theorem clamp_posinv {s : WeightedSet K} (hs : PosInv s) {c : Fl}
    (hv : validF c = true) : PosInv (s.clamp c).1 := by
  rw [WeightedSet.clamp]
  by_cases hz : feq c (Fl.fin 0) = true
  · rw [if_pos hz]; exact hs
  · rw [if_neg hz]
    by_cases hneg : flt c (Fl.fin 0) = true
    · rw [if_pos hneg]; exact hs
    · rw [if_neg hneg]
      intro p hp
      rcases List.mem_map.mp hp with ⟨q, hq, rfl⟩
      rw [clampEntry]
      by_cases hgt : fgt q.2 c = true
      · rw [if_pos hgt]
        have hcle : fle c (Fl.fin 0) = false := by
          rw [fle, Bool.or_eq_false_iff]
          exact ⟨Bool.not_eq_true _ ▸ hneg |> Bool.of_not_eq_true,
            Bool.not_eq_true _ ▸ hz |> Bool.of_not_eq_true⟩
        exact ⟨hcle, hv⟩
      · rw [if_neg hgt]
        exact hs q hq

theorem copy_posinv {s : WeightedSet K} (hs : PosInv s) : PosInv s.copy := hs

theorem mergeLoop_posinv {s o : WeightedSet K} (hs : PosInv s) (ho : PosInv o)
    (ks : List K) : PosInv (mergeLoop s o ks).1 := by
  induction ks generalizing s with
  | nil => exact hs
  | cons k ks ih =>
      rw [mergeLoop]
      cases hg : o.getitem k with
      | none => exact hs
      | some w =>
          dsimp only
          have hw : (k, w) ∈ o.weights := lookupW_mem hg
          have hval := (ho (k, w) hw).2
          cases ha : s.add k w with
          | mk s' e =>
              have hs' : PosInv s' := by
                have := add_posinv hs k hval
                rw [ha] at this
                exact this
              cases e with
              | none => exact ih hs'
              | some err =>
                  have hstate : s' = s := by
                    rw [WeightedSet.add] at ha
                    by_cases hneg : flt w (Fl.fin 0) = true
                    · rw [if_pos hneg] at ha; cases ha; rfl
                    · rw [if_neg hneg] at ha
                      by_cases hzero : feq w (Fl.fin 0) = true
                      · rw [if_pos hzero] at ha; cases ha
                      · rw [if_neg hzero] at ha
                        by_cases hc : s.contains k = true
                        · rw [if_pos hc] at ha; cases ha
                        · rw [if_neg hc] at ha; cases ha
                  exact hstate ▸ hs

theorem update_posinv {s : WeightedSet K} (hs : PosInv s) (args : List (UpdArg K))
    (hargs : ∀ o : WeightedSet K, UpdArg.ws o ∈ args → PosInv o) :
    PosInv (s.update args).1 := by
  induction args generalizing s with
  | nil => exact hs
  | cons a rest ih =>
      cases a with
      | notWeightedSet => exact hs
      | ws o =>
          have ho : PosInv o := hargs o (List.mem_cons_self _ _)
          rw [WeightedSet.update]
          cases hm : mergeFrom s o with
          | mk s' e =>
              have hs' : PosInv s' := by
                have := mergeLoop_posinv hs ho o.keys
                rw [mergeFrom] at hm
                rw [hm] at this
                exact this
              cases e with
              | none => exact ih hs' (fun o' ho' => hargs o' (List.mem_cons_of_mem _ ho'))
              | some err => exact hs'

/-- Every reachable state satisfies the positivity invariant: no stored
weight compares less-or-equal to zero, and every stored weight is a
representable float. -/
theorem posinv_of_reach {ws : WeightedSet K} (h : Reach ws) : PosInv ws := by
  induction h with
  | empty => intro p hp; cases hp
  | add k w _ hv ih => exact add_posinv ih k hv
  | imul c _ _ ih => exact imul_posinv ih c
  | itruediv c _ _ ih => exact itruediv_posinv ih c
  | clamp c _ hv ih => exact clamp_posinv ih hv
  | copy _ ih => exact copy_posinv ih
  | update args _ _ ih ihargs => exact update_posinv ih args ihargs

/-! The stable descending sort behind `keys`. -/

theorem insertDesc_perm (x : K × Fl) (l : List (K × Fl)) :
    List.Perm (insertDesc x l) (x :: l) := by
  induction l with
  | nil => exact List.Perm.refl _
  | cons y ys ih =>
      rw [insertDesc]
      by_cases h : fge x.2 y.2 = true
      · rw [if_pos h]
      · rw [if_neg h]
        exact (List.Perm.cons y ih).trans (List.Perm.swap x y ys)

theorem sortDesc_perm (l : List (K × Fl)) : List.Perm (sortDesc l) l := by
  induction l with
  | nil => exact List.Perm.refl _
  | cons x xs ih =>
      rw [sortDesc]
      exact (insertDesc_perm x (sortDesc xs)).trans (List.Perm.cons x ih)

theorem mem_sortDesc {p : K × Fl} {l : List (K × Fl)} :
    p ∈ sortDesc l ↔ p ∈ l :=
  (sortDesc_perm l).mem_iff

theorem keys_perm (ws : WeightedSet K) :
    List.Perm ws.keys (ws.weights.map Prod.fst) := by
  rw [WeightedSet.keys]
  exact (sortDesc_perm ws.weights).map Prod.fst

theorem fge_total_fin {a b : Fl} (ha : isFiniteF a = true) (hb : isFiniteF b = true) :
    fge a b = true ∨ fge b a = true := by
  cases a with
  | fin qa =>
      cases b with
      | fin qb =>
          simp only [fge, fle, flt, feq, Bool.or_eq_true, decide_eq_true_eq]
          rcases lt_trichotomy qa qb with h | h | h
          · exact Or.inr (Or.inl h)
          · exact Or.inl (Or.inr h.symm)
          · exact Or.inl (Or.inl h)
      | inf => cases hb
      | neginf => cases hb
      | nan => cases hb
  | inf => cases ha
  | neginf => cases ha
  | nan => cases ha

theorem fge_trans_fin {a b c : Fl} (ha : isFiniteF a = true)
    (hb : isFiniteF b = true) (hc : isFiniteF c = true)
    (h1 : fge a b = true) (h2 : fge b c = true) : fge a c = true := by
  cases a with
  | fin qa =>
      cases b with
      | fin qb =>
          cases c with
          | fin qc =>
              simp only [fge, fle, flt, feq, Bool.or_eq_true, decide_eq_true_eq] at h1 h2 ⊢
              rcases h1 with h1 | h1 <;> rcases h2 with h2 | h2
              · exact Or.inl (h2.trans h1)
              · exact Or.inl (by rw [h2]; exact h1)
              · exact Or.inl (by rw [← h1]; exact h2)
              · exact Or.inr (h2.trans h1)
          | inf => cases hc
          | neginf => cases hc
          | nan => cases hc
      | inf => cases hb
      | neginf => cases hb
      | nan => cases hb
  | inf => cases ha
  | neginf => cases ha
  | nan => cases ha

theorem sorted_insertDesc {x : K × Fl} {l : List (K × Fl)}
    (hx : isFiniteF x.2 = true) (hl : ∀ p ∈ l, isFiniteF p.2 = true)
    (hs : List.Sorted (fun a b : K × Fl => fge a.2 b.2 = true) l) :
    List.Sorted (fun a b : K × Fl => fge a.2 b.2 = true) (insertDesc x l) := by
  induction l with
  | nil => simp [insertDesc]
  | cons y ys ih =>
      rw [insertDesc]
      rw [List.sorted_cons] at hs
      have hy : isFiniteF y.2 = true := hl y (List.mem_cons_self _ _)
      have hys : ∀ p ∈ ys, isFiniteF p.2 = true :=
        fun p hp => hl p (List.mem_cons_of_mem _ hp)
      by_cases h : fge x.2 y.2 = true
      · rw [if_pos h]
        rw [List.sorted_cons]
        refine ⟨?_, List.sorted_cons.mpr hs⟩
        intro b hb
        rcases List.mem_cons.mp hb with rfl | hb
        · exact h
        · exact fge_trans_fin hx hy (hys b hb) h (hs.1 b hb)
      · rw [if_neg h]
        rw [List.sorted_cons]
        constructor
        · intro b hb
          have hb' : b ∈ x :: ys := (insertDesc_perm x ys).mem_iff.mp hb
          rcases List.mem_cons.mp hb' with rfl | hb''
          · rcases fge_total_fin hx hy with h' | h'
            · exact absurd h' h
            · exact h'
          · exact hs.1 b hb''
        · exact ih hys hs.2

theorem sorted_sortDesc {l : List (K × Fl)}
    (hl : ∀ p ∈ l, isFiniteF p.2 = true) :
    List.Sorted (fun a b : K × Fl => fge a.2 b.2 = true) (sortDesc l) := by
  induction l with
  | nil => simp [sortDesc]
  | cons x xs ih =>
      rw [sortDesc]
      exact sorted_insertDesc (hl x (List.mem_cons_self _ _))
        (fun p hp => hl p (List.mem_cons_of_mem _ (mem_sortDesc.mp hp)))
        (ih (fun p hp => hl p (List.mem_cons_of_mem _ hp)))

theorem filter_insertDesc_ne {x : K × Fl} {l : List (K × Fl)} {q : ℚ}
    (hx : x.2 ≠ Fl.fin q) :
    (insertDesc x l).filter (fun p => decide (p.2 = Fl.fin q)) =
      l.filter (fun p => decide (p.2 = Fl.fin q)) := by
  induction l with
  | nil =>
      rw [insertDesc, List.filter_cons, if_neg (by simp [hx])]
  | cons y ys ih =>
      rw [insertDesc]
      by_cases h : fge x.2 y.2 = true
      · rw [if_pos h, List.filter_cons, if_neg (by simp [hx])]
      · rw [if_neg h]
        by_cases hy : y.2 = Fl.fin q
        · rw [List.filter_cons, if_pos (by simp [hy]), List.filter_cons,
            if_pos (by simp [hy]), ih]
        · rw [List.filter_cons, if_neg (by simp [hy]), List.filter_cons,
            if_neg (by simp [hy]), ih]

theorem filter_insertDesc_eq {x : K × Fl} {l : List (K × Fl)} {q : ℚ}
    (hx : x.2 = Fl.fin q) (hl : ∀ p ∈ l, isFiniteF p.2 = true) :
    (insertDesc x l).filter (fun p => decide (p.2 = Fl.fin q)) =
      x :: l.filter (fun p => decide (p.2 = Fl.fin q)) := by
  induction l with
  | nil =>
      rw [insertDesc, List.filter_cons, if_pos (by simp [hx])]
  | cons y ys ih =>
      rw [insertDesc]
      by_cases h : fge x.2 y.2 = true
      · rw [if_pos h, List.filter_cons, if_pos (by simp [hx])]
      · rw [if_neg h]
        have hyne : y.2 ≠ Fl.fin q := by
          intro hc
          apply h
          rw [hx, hc]
          simp [fge, fle, flt, feq]
        rw [List.filter_cons, if_neg (by simp [hyne]), List.filter_cons,
          if_neg (by simp [hyne])]
        exact ih (fun p hp => hl p (List.mem_cons_of_mem _ hp))

theorem filter_sortDesc {l : List (K × Fl)} (q : ℚ)
    (hl : ∀ p ∈ l, isFiniteF p.2 = true) :
    (sortDesc l).filter (fun p => decide (p.2 = Fl.fin q)) =
      l.filter (fun p => decide (p.2 = Fl.fin q)) := by
  induction l with
  | nil => rfl
  | cons x xs ih =>
      rw [sortDesc]
      have hxs : ∀ p ∈ xs, isFiniteF p.2 = true :=
        fun p hp => hl p (List.mem_cons_of_mem _ hp)
      have hsxs : ∀ p ∈ sortDesc xs, isFiniteF p.2 = true :=
        fun p hp => hxs p (mem_sortDesc.mp hp)
      by_cases hx : x.2 = Fl.fin q
      · rw [filter_insertDesc_eq hx hsxs, ih hxs, List.filter_cons,
          if_pos (by simp [hx])]
      · rw [filter_insertDesc_ne hx, ih hxs, List.filter_cons,
          if_neg (by simp [hx])]

/-! Small facts about `add` and the key list. -/

theorem isPosFin_flt_zero {w : Fl} (h : isPosFin w = true) :
    flt w (Fl.fin 0) = false := by
  cases w with
  | fin q =>
      simp only [isPosFin, decide_eq_true_eq] at h
      simp only [flt, decide_eq_false_iff_not]
      exact not_lt.mpr h.le
  | inf => rfl
  | neginf => cases h
  | nan => rfl

theorem isPosFin_feq_zero {w : Fl} (h : isPosFin w = true) :
    feq w (Fl.fin 0) = false := by
  cases w with
  | fin q =>
      simp only [isPosFin, decide_eq_true_eq] at h
      simp only [feq, decide_eq_false_iff_not]
      exact ne_of_gt h
  | inf => rfl
  | neginf => cases h
  | nan => rfl

theorem add_existing {s : WeightedSet K} {k : K} {w w0 : Fl}
    (hpos : isPosFin w = true) (hlk : lookupW s.weights k = some w0) :
    s.add k w = (⟨bumpW s.weights k w⟩, none) := by
  rw [WeightedSet.add, if_neg (by simp [isPosFin_flt_zero hpos]),
    if_neg (by simp [isPosFin_feq_zero hpos]),
    if_pos (by rw [WeightedSet.contains, hlk]; rfl)]

theorem add_absent {s : WeightedSet K} {k : K} {w : Fl}
    (hpos : isPosFin w = true) (hlk : lookupW s.weights k = none) :
    s.add k w = (⟨s.weights ++ [(k, w)]⟩, none) := by
  rw [WeightedSet.add, if_neg (by simp [isPosFin_flt_zero hpos]),
    if_neg (by simp [isPosFin_feq_zero hpos]),
    if_neg (by rw [WeightedSet.contains, hlk]; simp)]

theorem keys_mem_iff {ws : WeightedSet K} {k : K} :
    k ∈ ws.keys ↔ k ∈ ws.weights.map Prod.fst :=
  (keys_perm ws).mem_iff

theorem keys_nodup {ws : WeightedSet K} (h : KeysNodup ws) : ws.keys.Nodup :=
  ((keys_perm ws).nodup_iff).mpr h

/-! Lookup through `clamp`. -/

theorem lookupW_clamp (limit : Fl) (l : List (K × Fl)) (k : K) :
    lookupW (l.map (clampEntry limit)) k =
      (lookupW l k).map (fun w => if fgt w limit = true then limit else w) := by
  induction l with
  | nil => rfl
  | cons p rest ih =>
      obtain ⟨k0, w0⟩ := p
      rw [List.map_cons]
      by_cases hk : k0 = k
      · rw [show clampEntry limit (k0, w0) =
            (k0, if fgt w0 limit = true then limit else w0) from by
            rw [clampEntry]; by_cases hgt : fgt w0 limit = true
            · rw [if_pos hgt, if_pos hgt]
            · rw [if_neg hgt, if_neg hgt]]
        rw [lookupW, if_pos hk, lookupW, if_pos hk]
        rfl
      · rw [show clampEntry limit (k0, w0) =
            (k0, if fgt w0 limit = true then limit else w0) from by
            rw [clampEntry]; by_cases hgt : fgt w0 limit = true
            · rw [if_pos hgt, if_pos hgt]
            · rw [if_neg hgt, if_neg hgt]]
        rw [lookupW, if_neg hk, lookupW, if_neg hk]
        exact ih

/-! The self-merge loop of `a.update(a)`. -/

theorem selfLoop_spec (a : WeightedSet K) (hI : I1W a)
    (ks : List K) (hnd : ks.Nodup)
    (hsub : ∀ k ∈ ks, k ∈ a.weights.map Prod.fst)
    (s : WeightedSet K)
    (hinv : ∀ k : K, (k ∈ ks → s.getitem k = a.getitem k) ∧
      (k ∉ ks → s.getitem k = (a.getitem k).map (fun w => fadd w w))) :
    (selfLoop s ks).2 = none ∧
      ∀ k : K, (selfLoop s ks).1.getitem k =
        (a.getitem k).map (fun w => fadd w w) := by
  induction ks generalizing s with
  | nil => exact ⟨rfl, fun k => (hinv k).2 (List.not_mem_nil k)⟩
  | cons k0 ks ih =>
      obtain ⟨w0, hw0⟩ :=
        lookupW_isSome_of_mem (hsub k0 (List.mem_cons_self _ _))
      have hga : a.getitem k0 = some w0 := hw0
      have hgs : s.getitem k0 = some w0 := by
        rw [(hinv k0).1 (List.mem_cons_self _ _), hga]
      have hpos : isPosFin w0 = true := (hI (k0, w0) (lookupW_mem hw0)).1
      have hnd' := List.nodup_cons.mp hnd
      rw [selfLoop, hgs]
      dsimp only
      rw [add_existing hpos hgs]
      dsimp only
      apply ih hnd'.2 (fun k hk => hsub k (List.mem_cons_of_mem _ hk))
      intro k
      constructor
      · intro hk
        have hne : k ≠ k0 := fun hc => hnd'.1 (hc ▸ hk)
        show lookupW (bumpW s.weights k0 w0) k = a.getitem k
        rw [lookupW_bumpW_ne hne]
        exact (hinv k).1 (List.mem_cons_of_mem _ hk)
      · intro hk
        by_cases hke : k = k0
        · subst hke
          show lookupW (bumpW s.weights k w0) k = (a.getitem k).map (fun w => fadd w w)
          rw [lookupW_bumpW_self hgs, hga]
          rfl
        · have hk' : k ∉ k0 :: ks := by
            intro hc
            rcases List.mem_cons.mp hc with hc | hc
            · exact hke hc
            · exact hk hc
          show lookupW (bumpW s.weights k0 w0) k = (a.getitem k).map (fun w => fadd w w)
          rw [lookupW_bumpW_ne hke]
          exact (hinv k).2 hk'

/-! The merge loop of `update` with a well-formed other set never raises. -/

theorem mergeLoop_ok {o : WeightedSet K} (hI : I1W o) (ks : List K)
    (hsub : ∀ k ∈ ks, k ∈ o.weights.map Prod.fst) (s : WeightedSet K) :
    (mergeLoop s o ks).2 = none := by
  induction ks generalizing s with
  | nil => rfl
  | cons k0 ks ih =>
      obtain ⟨w0, hw0⟩ :=
        lookupW_isSome_of_mem (hsub k0 (List.mem_cons_self _ _))
      have hpos : isPosFin w0 = true := (hI (k0, w0) (lookupW_mem hw0)).1
      rw [mergeLoop, show o.getitem k0 = some w0 from hw0]
      dsimp only
      rw [WeightedSet.add, if_neg (by simp [isPosFin_flt_zero hpos]),
        if_neg (by simp [isPosFin_feq_zero hpos])]
      have hsub' := fun k hk => hsub k (List.mem_cons_of_mem _ hk)
      by_cases hc : s.contains k0 = true
      · rw [if_pos hc]
        dsimp only
        exact ih hsub' _
      · rw [if_neg hc]
        dsimp only
        exact ih hsub' _

theorem mergeFrom_ok {o : WeightedSet K} (hI : I1W o) (s : WeightedSet K) :
    (mergeFrom s o).2 = none :=
  mergeLoop_ok hI o.keys (fun k hk => keys_mem_iff.mp hk) s

/-! Further guard characterisations. -/

theorem flt_zero_of_fge {s : Fl} (h : fge s (Fl.fin 0) = true) :
    flt s (Fl.fin 0) = false := by
  rcases fge_zero_char h with rfl | ⟨q, rfl, hq⟩
  · rfl
  · simp only [flt, decide_eq_false_iff_not]
    exact not_lt.mpr hq

theorem guards_of_fgt_zero {s : Fl} (h : fgt s (Fl.fin 0) = true) :
    feq s (Fl.fin 0) = false ∧ flt s (Fl.fin 0) = false := by
  rcases fgt_zero_char h with rfl | ⟨q, rfl, hq⟩
  · exact ⟨rfl, rfl⟩
  · constructor
    · simp only [feq, decide_eq_false_iff_not]
      exact ne_of_gt hq
    · simp only [flt, decide_eq_false_iff_not]
      exact not_lt.mpr hq.le

theorem feq_zero_of_flt_zero {d : Fl} (h : flt d (Fl.fin 0) = true) :
    feq d (Fl.fin 0) = false := by
  cases d with
  | fin q =>
      simp only [flt, decide_eq_true_eq] at h
      simp only [feq, decide_eq_false_iff_not]
      exact ne_of_lt h
  | inf => simp [flt] at h
  | neginf => rfl
  | nan => simp [flt] at h

theorem isPosFin_char {w : Fl} (h : isPosFin w = true) :
    ∃ q, w = Fl.fin q ∧ 0 < q := by
  cases w with
  | fin q =>
      simp only [isPosFin, decide_eq_true_eq] at h
      exact ⟨q, rfl, h⟩
  | inf => cases h
  | neginf => cases h
  | nan => cases h

theorem isFiniteF_of_isPosFin {w : Fl} (h : isPosFin w = true) :
    isFiniteF w = true := by
  cases w with
  | fin q => rfl
  | inf => cases h
  | neginf => cases h
  | nan => cases h

theorem add_absent' {s : WeightedSet K} {k : K} {w : Fl}
    (hneg : flt w (Fl.fin 0) = false) (hz : feq w (Fl.fin 0) = false)
    (hlk : lookupW s.weights k = none) :
    s.add k w = (⟨s.weights ++ [(k, w)]⟩, none) := by
  rw [WeightedSet.add, if_neg (by simp [hneg]), if_neg (by simp [hz]),
    if_neg (by rw [WeightedSet.contains, hlk]; simp)]

theorem add_existing' {s : WeightedSet K} {k : K} {w w0 : Fl}
    (hneg : flt w (Fl.fin 0) = false) (hz : feq w (Fl.fin 0) = false)
    (hlk : lookupW s.weights k = some w0) :
    s.add k w = (⟨bumpW s.weights k w⟩, none) := by
  rw [WeightedSet.add, if_neg (by simp [hneg]), if_neg (by simp [hz]),
    if_pos (by rw [WeightedSet.contains, hlk]; rfl)]

theorem roundF_zero : roundF 0 = Fl.fin 0 := by
  rw [roundF, if_neg (by linarith [FMAX_pos]), if_neg (by linarith [FMAX_pos]),
    if_pos ⟨by linarith [FMIN_pos], FMIN_pos⟩]

/-! Claim theorems. -/

/-- C1 (counterexample): the claim "every key present in the internal mapping
has a weight that is strictly greater than zero and finite; any call that
would introduce a non-finite weight either fails at the mutation boundary or
removes the key" is false as stated: `add("a", float("inf"))` on a freshly
constructed empty set succeeds, removes nothing, and stores the non-finite
weight `inf` for `"a"`. -/
theorem C1_counterexample :
    (⟨[]⟩ : WeightedSet String).add "a" Fl.inf = (⟨[("a", Fl.inf)]⟩, none) ∧
    ((⟨[]⟩ : WeightedSet String).add "a" Fl.inf).1.getitem "a" = some Fl.inf ∧
    isFiniteF Fl.inf = false := by
  exact ⟨by decide, by decide, rfl⟩

/-- C1 (amended): for every `WeightedSet` reachable from empty construction
by any sequence of the public operations with machine-float arguments, every
stored weight never compares less-or-equal to zero (a weight equal to zero or
negative is rejected at the mutation boundary or causes the key to be
removed) and is a representable float value; finiteness, however, is not an
invariant — `add` stores the infinite or NaN weights it is given, and
scaling by NaN stores NaN weights. -/
theorem C1_amended_invariant {K : Type} [DecidableEq K] {ws : WeightedSet K}
    (h : Reach ws) (k : K) (w : Fl) (hw : ws.getitem k = some w) :
    fle w (Fl.fin 0) = false ∧ validF w = true :=
  posinv_of_reach h (k, w) (lookupW_mem hw)

/-- Witness for `C1_amended_invariant` at the reachable one-key state. -/
theorem C1_amended_invariant_witness :
    fle (Fl.fin 1) (Fl.fin 0) = false ∧ validF (Fl.fin 1) = true :=
  C1_amended_invariant
    (Reach.add "a" (Fl.fin 1) (Reach.empty : Reach (⟨[]⟩ : WeightedSet String)) (by decide))
    "a" (Fl.fin 1) (by decide)

/-- C2: on a set satisfying invariant I1, if scaling by a non-negative factor
(resp. dividing by a strictly positive divisor) makes any stored weight
infinite or NaN, the whole operation fails with the Overflow error and the
set is left unchanged; in particular `add("a", 1e200)` on an empty set
followed by `scale_by_inverse(1e-200)` fails with Overflow. -/
theorem C2_overflow_error {K : Type} [DecidableEq K] :
    (∀ (ws : WeightedSet K) (s : Fl), I1W ws → fge s (Fl.fin 0) = true →
      (∃ p ∈ ws.weights, fmul p.2 s = Fl.inf ∨ fmul p.2 s = Fl.nan) →
      ws.imul s = (ws, some Err.overflow)) ∧
    (∀ (ws : WeightedSet K) (s : Fl), I1W ws → fgt s (Fl.fin 0) = true →
      (∃ p ∈ ws.weights, fdiv p.2 s = Fl.inf ∨ fdiv p.2 s = Fl.nan) →
      ws.itruediv s = (ws, some Err.overflow)) ∧
    ((⟨[]⟩ : WeightedSet String).add "a" (Fl.fin lit1e200)).1.itruediv
        (Fl.fin lit1em200) =
      (((⟨[]⟩ : WeightedSet String).add "a" (Fl.fin lit1e200)).1,
        some Err.overflow) := by
  refine ⟨?_, ?_, by decide⟩
  · intro ws s hI hge hex
    have hnn : ∀ p ∈ ws.weights, fmul p.2 s ≠ Fl.nan := by
      intro p hp
      obtain ⟨q, hq, hqpos⟩ := isPosFin_char (hI p hp).1
      rw [hq]
      exact fmul_pos_ne_nan hqpos hge
    rw [WeightedSet.imul, if_neg (by simp [flt_zero_of_fge hge]),
      scaleList_err hnn hex]
  · intro ws s hI hgt hex
    have hnn : ∀ p ∈ ws.weights, fdiv p.2 s ≠ Fl.nan := by
      intro p hp
      obtain ⟨q, hq, hqpos⟩ := isPosFin_char (hI p hp).1
      rw [hq]
      exact fdiv_pos_ne_nan hqpos hgt
    obtain ⟨hz, hneg⟩ := guards_of_fgt_zero hgt
    rw [WeightedSet.itruediv, if_neg (by simp [hz]), if_neg (by simp [hneg]),
      scaleList_err hnn hex]

/-- Witness for `C2_overflow_error`: multiplying the weight `1e200` by the
factor `1e200` overflows, so `scale_by` fails with Overflow. -/
theorem C2_overflow_error_witness :
    (⟨[("a", Fl.fin lit1e200)]⟩ : WeightedSet String).imul (Fl.fin lit1e200) =
      (⟨[("a", Fl.fin lit1e200)]⟩, some Err.overflow) :=
  C2_overflow_error.1 ⟨[("a", Fl.fin lit1e200)]⟩ (Fl.fin lit1e200)
    (by decide) (by decide) (by decide)

/-- C3: whenever `scale_by` or `scale_by_inverse` fails with the Overflow
error, the mapping is exactly what it was before the call — the local
`scaled_weights` dict is only assigned to `self._weights` after the whole
loop, so no key is observable partially scaled and none has been removed. -/
theorem C3_overflow_atomic {K : Type} [DecidableEq K] :
    (∀ (ws : WeightedSet K) (s : Fl), (ws.imul s).2 = some Err.overflow →
      (ws.imul s).1 = ws ∧ ∀ k, (ws.imul s).1.getitem k = ws.getitem k) ∧
    (∀ (ws : WeightedSet K) (s : Fl), (ws.itruediv s).2 = some Err.overflow →
      (ws.itruediv s).1 = ws ∧ ∀ k, (ws.itruediv s).1.getitem k = ws.getitem k) := by
  constructor
  · intro ws s h
    rw [WeightedSet.imul] at h ⊢
    by_cases hneg : flt s (Fl.fin 0) = true
    · rw [if_pos hneg] at h
      simp at h
    · rw [if_neg hneg] at h ⊢
      cases hsc : scaleList fmul s ws.weights with
      | error e => exact ⟨rfl, fun k => rfl⟩
      | ok l => rw [hsc] at h; simp at h
  · intro ws s h
    rw [WeightedSet.itruediv] at h ⊢
    by_cases hz : feq s (Fl.fin 0) = true
    · rw [if_pos hz] at h
      simp at h
    · rw [if_neg hz] at h ⊢
      by_cases hneg : flt s (Fl.fin 0) = true
      · rw [if_pos hneg] at h
        simp at h
      · rw [if_neg hneg] at h ⊢
        cases hsc : scaleList fdiv s ws.weights with
        | error e => exact ⟨rfl, fun k => rfl⟩
        | ok l => rw [hsc] at h; simp at h

/-- Witness for `C3_overflow_atomic` at a concrete overflowing call. -/
theorem C3_overflow_atomic_witness :
    ((⟨[("a", Fl.fin lit1e200)]⟩ : WeightedSet String).imul
        (Fl.fin lit1e200)).1 = ⟨[("a", Fl.fin lit1e200)]⟩ :=
  (C3_overflow_atomic.1 ⟨[("a", Fl.fin lit1e200)]⟩ (Fl.fin lit1e200)
    (by decide)).1

/-- C4: on a set satisfying invariant I1, a key whose weight scales to
exactly zero is silently removed: `scale_by(0)` succeeds and empties the set,
any key whose multiplied (resp. divided) weight equals zero is absent from
the successful result, and `add("a", 1e-200)` followed by
`scale_by_inverse(1e200)` succeeds and leaves `"a"` absent. -/
theorem C4_zero_removal {K : Type} [DecidableEq K] :
    (∀ ws : WeightedSet K, I1W ws → ws.imul (Fl.fin 0) = (⟨[]⟩, none)) ∧
    (∀ (ws ws' : WeightedSet K) (s : Fl) (k : K) (w : Fl), KeysNodup ws →
      ws.imul s = (ws', none) → ws.getitem k = some w →
      feq (fmul w s) (Fl.fin 0) = true → ws'.getitem k = none) ∧
    (∀ (ws ws' : WeightedSet K) (s : Fl) (k : K) (w : Fl), KeysNodup ws →
      ws.itruediv s = (ws', none) → ws.getitem k = some w →
      feq (fdiv w s) (Fl.fin 0) = true → ws'.getitem k = none) ∧
    ((⟨[]⟩ : WeightedSet String).add "a" (Fl.fin lit1em200)).1.itruediv
      (Fl.fin lit1e200) = (⟨[]⟩, none) := by
  refine ⟨?_, ?_, ?_, by decide⟩
  · intro ws hI
    rw [WeightedSet.imul, if_neg (by simp [flt])]
    rw [scaleList_all_zero]
    intro p hp
    obtain ⟨q, hq, hqpos⟩ := isPosFin_char (hI p hp).1
    rw [hq]
    show feq (roundF (qmul q 0)) (Fl.fin 0) = true
    rw [show qmul q 0 = 0 from by rw [qmul_eq, mul_zero], roundF_zero]
    simp [feq]
  · intro ws ws' s k w hnd hmul hlk hz
    rw [WeightedSet.imul] at hmul
    by_cases hneg : flt s (Fl.fin 0) = true
    · rw [if_pos hneg] at hmul
      simp at hmul
    · rw [if_neg hneg] at hmul
      cases hsc : scaleList fmul s ws.weights with
      | error e => rw [hsc] at hmul; simp at hmul
      | ok l =>
          rw [hsc] at hmul
          have hws' : ws' = ⟨l⟩ := by
            have := congrArg Prod.fst hmul
            exact this.symm
          rw [hws']
          exact scaleList_removes_zero hnd hlk hz hsc
  · intro ws ws' s k w hnd hdiv hlk hz
    rw [WeightedSet.itruediv] at hdiv
    by_cases hzg : feq s (Fl.fin 0) = true
    · rw [if_pos hzg] at hdiv
      simp at hdiv
    · rw [if_neg hzg] at hdiv
      by_cases hneg : flt s (Fl.fin 0) = true
      · rw [if_pos hneg] at hdiv
        simp at hdiv
      · rw [if_neg hneg] at hdiv
        cases hsc : scaleList fdiv s ws.weights with
        | error e => rw [hsc] at hdiv; simp at hdiv
        | ok l =>
            rw [hsc] at hdiv
            have hws' : ws' = ⟨l⟩ := by
              have := congrArg Prod.fst hdiv
              exact this.symm
            rw [hws']
            exact scaleList_removes_zero hnd hlk hz hsc

/-- Witness for `C4_zero_removal`: `scale_by(0)` empties a concrete set. -/
theorem C4_zero_removal_witness :
    (⟨[("a", Fl.fin 2), ("b", Fl.fin 3)]⟩ : WeightedSet String).imul
      (Fl.fin 0) = (⟨[]⟩, none) :=
  C4_zero_removal.1 ⟨[("a", Fl.fin 2), ("b", Fl.fin 3)]⟩ (by decide)

/-- C5: `keys()` returns exactly the keys present (a permutation of the
mapping's keys), ordered by non-increasing weight, with equal-weight keys in
insertion order (the sort is stable: filtering the sorted entries at any
fixed weight gives back the insertion-ordered entries of that weight); the
concrete six-key scenario returns `["e","f","d","c","a","b"]`. -/
theorem C5_keys_order {K : Type} [DecidableEq K] (ws : WeightedSet K)
    (hI : I1W ws) :
    List.Perm ws.keys (ws.weights.map Prod.fst) ∧
    List.Sorted (fun a b : K × Fl => fge a.2 b.2 = true) (sortDesc ws.weights) ∧
    (∀ q : ℚ, (sortDesc ws.weights).filter (fun p => decide (p.2 = Fl.fin q)) =
      ws.weights.filter (fun p => decide (p.2 = Fl.fin q))) ∧
    (((((((⟨[]⟩ : WeightedSet String).add "a" (Fl.fin 1)).1.add "b"
      (Fl.fin (mkRat 1 1000000))).1.add "c" (Fl.fin (mkRat 11 10))).1.add "d"
      (Fl.fin 2)).1.add "e" (Fl.fin 10000000)).1.add "f" (Fl.fin 3)).1.keys =
      ["e", "f", "d", "c", "a", "b"] := by
  have hfin : ∀ p ∈ ws.weights, isFiniteF p.2 = true :=
    fun p hp => isFiniteF_of_isPosFin (hI p hp).1
  exact ⟨keys_perm ws, sorted_sortDesc hfin, fun q => filter_sortDesc q hfin,
    by decide⟩

/-- Witness for `C5_keys_order` at a concrete two-key set. -/
theorem C5_keys_order_witness :
    List.Perm ((⟨[("x", Fl.fin 2), ("y", Fl.fin 5)]⟩ : WeightedSet String).keys)
      ([("x", Fl.fin 2), ("y", Fl.fin 5)].map Prod.fst) :=
  (C5_keys_order ⟨[("x", Fl.fin 2), ("y", Fl.fin 5)]⟩ (by decide)).1

theorem feq_zero_char {w : Fl} (h : feq w (Fl.fin 0) = true) : w = Fl.fin 0 := by
  cases w with
  | fin q =>
      simp only [feq, decide_eq_true_eq] at h
      rw [h]
  | inf => cases h
  | neginf => cases h
  | nan => cases h

theorem fadd_fin_zero {q : ℚ} (hv : validF (Fl.fin q) = true) :
    fadd (Fl.fin q) (Fl.fin 0) = Fl.fin q := by
  show roundF (qadd q 0) = Fl.fin q
  rw [show qadd q 0 = q from by rw [qadd_eq, add_zero], roundF_eq_self hv]

theorem fadd_zero_fin {q : ℚ} (hv : validF (Fl.fin q) = true) :
    fadd (Fl.fin 0) (Fl.fin q) = Fl.fin q := by
  show roundF (qadd 0 q) = Fl.fin q
  rw [show qadd 0 q = q from by rw [qadd_eq, zero_add], roundF_eq_self hv]

theorem add_second_on_present (s1 : WeightedSet K) {k : K} {w1 w2 : Fl}
    (hlk1 : lookupW s1.weights k = some w1)
    (h2 : fge w2 (Fl.fin 0) = true) (hv1 : validF w1 = true)
    (hw1 : w1 = Fl.inf ∨ ∃ q1, w1 = Fl.fin q1 ∧ 0 < q1) :
    (s1.add k w2).2 = none ∧ (s1.add k w2).1.getitem k = some (fadd w1 w2) := by
  rcases fge_zero_char h2 with rfl | ⟨q2, rfl, hq02⟩
  · rw [add_existing' (show flt Fl.inf (Fl.fin 0) = false from rfl)
      (show feq Fl.inf (Fl.fin 0) = false from rfl) hlk1]
    exact ⟨rfl, lookupW_bumpW_self hlk1 _⟩
  · rcases eq_or_lt_of_le hq02 with hq2z | hq2p
    · obtain rfl : q2 = 0 := hq2z.symm
      have hnoop : s1.add k (Fl.fin 0) = (s1, none) := by
        rw [WeightedSet.add, if_neg (by simp [flt]), if_pos (by simp [feq])]
      rw [hnoop]
      refine ⟨rfl, ?_⟩
      show lookupW s1.weights k = some (fadd w1 (Fl.fin 0))
      rcases hw1 with rfl | ⟨q1, rfl, hq1p⟩
      · exact hlk1
      · rw [fadd_fin_zero hv1]
        exact hlk1
    · have hneg2 : flt (Fl.fin q2) (Fl.fin 0) = false := by
        simp only [flt, decide_eq_false_iff_not]
        exact not_lt.mpr hq2p.le
      have hz2 : feq (Fl.fin q2) (Fl.fin 0) = false := by
        simp only [feq, decide_eq_false_iff_not]
        exact ne_of_gt hq2p
      rw [add_existing' hneg2 hz2 hlk1]
      exact ⟨rfl, lookupW_bumpW_self hlk1 _⟩

/-- C6: adding `w1` and then `w2` for a key not previously present, with both
weights non-negative and at least one strictly positive, stores exactly the
float sum `w1 + w2` for that key. -/
theorem C6_add_accumulates {K : Type} [DecidableEq K] (ws : WeightedSet K)
    (k : K) (w1 w2 : Fl) (habs : ws.getitem k = none)
    (h1 : fge w1 (Fl.fin 0) = true) (h2 : fge w2 (Fl.fin 0) = true)
    (hpos : fgt w1 (Fl.fin 0) = true ∨ fgt w2 (Fl.fin 0) = true)
    (hv1 : validF w1 = true) (hv2 : validF w2 = true) :
    (ws.add k w1).2 = none ∧ ((ws.add k w1).1.add k w2).2 = none ∧
      ((ws.add k w1).1.add k w2).1.getitem k = some (fadd w1 w2) := by
  rcases fge_zero_char h1 with rfl | ⟨q1, rfl, hq01⟩
  · -- w1 = inf
    rw [add_absent' (show flt Fl.inf (Fl.fin 0) = false from rfl)
      (show feq Fl.inf (Fl.fin 0) = false from rfl) habs]
    dsimp only
    have hlk1 : lookupW (ws.weights ++ [(k, Fl.inf)]) k = some Fl.inf :=
      lookupW_append_self habs
    obtain ⟨hs2, hg2⟩ := add_second_on_present ⟨ws.weights ++ [(k, Fl.inf)]⟩
      hlk1 h2 hv1 (Or.inl rfl)
    exact ⟨rfl, hs2, hg2⟩
  · rcases eq_or_lt_of_le hq01 with hq1z | hq1p
    · -- w1 = 0: the first add is a no-op, the second must add a positive w2
      obtain rfl : q1 = 0 := hq1z.symm
      have hp2 : fgt w2 (Fl.fin 0) = true := by
        rcases hpos with hp | hp
        · simp [fgt, flt] at hp
        · exact hp
      obtain ⟨hz2, hneg2⟩ := guards_of_fgt_zero hp2
      have ha1 : ws.add k (Fl.fin 0) = (ws, none) := by
        rw [WeightedSet.add, if_neg (by simp [flt]), if_pos (by simp [feq])]
      rw [ha1]
      dsimp only
      rw [add_absent' hneg2 hz2 habs]
      refine ⟨rfl, rfl, ?_⟩
      show lookupW (ws.weights ++ [(k, w2)]) k = some (fadd (Fl.fin 0) w2)
      rw [lookupW_append_self habs]
      rcases fgt_zero_char hp2 with rfl | ⟨q2, rfl, hq2⟩
      · rfl
      · rw [fadd_zero_fin hv2]
    · -- w1 finite positive
      have hneg1 : flt (Fl.fin q1) (Fl.fin 0) = false := by
        simp only [flt, decide_eq_false_iff_not]
        exact not_lt.mpr hq1p.le
      have hz1 : feq (Fl.fin q1) (Fl.fin 0) = false := by
        simp only [feq, decide_eq_false_iff_not]
        exact ne_of_gt hq1p
      rw [add_absent' hneg1 hz1 habs]
      dsimp only
      have hlk1 : lookupW (ws.weights ++ [(k, Fl.fin q1)]) k = some (Fl.fin q1) :=
        lookupW_append_self habs
      obtain ⟨hs2, hg2⟩ := add_second_on_present
        ⟨ws.weights ++ [(k, Fl.fin q1)]⟩ hlk1 h2 hv1
        (Or.inr ⟨q1, rfl, hq1p⟩)
      exact ⟨rfl, hs2, hg2⟩

/-- Witness for `C6_add_accumulates`: `add("a",1); add("a",2)` stores `1+2`. -/
theorem C6_add_accumulates_witness :
    (((⟨[]⟩ : WeightedSet String).add "a" (Fl.fin 1)).1.add "a"
      (Fl.fin 2)).1.getitem "a" = some (fadd (Fl.fin 1) (Fl.fin 2)) :=
  (C6_add_accumulates ⟨[]⟩ "a" (Fl.fin 1) (Fl.fin 2) rfl (by decide) (by decide)
    (Or.inl (by decide)) (by decide) (by decide)).2.2

/-- C7: `scale_by` with a negative factor fails with InvalidArgument and
leaves the set unchanged; `scale_by_inverse(0)` fails with DivisionByZero,
an error kind distinct from InvalidArgument; `scale_by_inverse` with a
negative divisor fails with InvalidArgument; in every case the returned
state is the pre-call state. -/
theorem C7_guard_errors {K : Type} [DecidableEq K] :
    (∀ (ws : WeightedSet K) (s : Fl), flt s (Fl.fin 0) = true →
      ws.imul s = (ws, some Err.invalidArgument)) ∧
    (∀ ws : WeightedSet K, ws.itruediv (Fl.fin 0) = (ws, some Err.divisionByZero)) ∧
    Err.divisionByZero ≠ Err.invalidArgument ∧
    (∀ (ws : WeightedSet K) (d : Fl), flt d (Fl.fin 0) = true →
      ws.itruediv d = (ws, some Err.invalidArgument)) := by
  refine ⟨?_, ?_, by decide, ?_⟩
  · intro ws s h
    rw [WeightedSet.imul, if_pos h]
  · intro ws
    rw [WeightedSet.itruediv, if_pos (by simp [feq])]
  · intro ws d h
    rw [WeightedSet.itruediv, if_neg (by simp [feq_zero_of_flt_zero h]), if_pos h]

/-- Witness for `C7_guard_errors` at concrete failing calls. -/
theorem C7_guard_errors_witness :
    (⟨[("a", Fl.fin 1)]⟩ : WeightedSet String).imul (Fl.fin (-3)) =
      (⟨[("a", Fl.fin 1)]⟩, some Err.invalidArgument) ∧
    (⟨[("a", Fl.fin 1)]⟩ : WeightedSet String).itruediv (Fl.fin 0) =
      (⟨[("a", Fl.fin 1)]⟩, some Err.divisionByZero) ∧
    (⟨[("a", Fl.fin 1)]⟩ : WeightedSet String).itruediv (Fl.fin (-3)) =
      (⟨[("a", Fl.fin 1)]⟩, some Err.invalidArgument) :=
  ⟨C7_guard_errors.1 ⟨[("a", Fl.fin 1)]⟩ (Fl.fin (-3)) (by decide),
    C7_guard_errors.2.1 ⟨[("a", Fl.fin 1)]⟩,
    C7_guard_errors.2.2.2 ⟨[("a", Fl.fin 1)]⟩ (Fl.fin (-3)) (by decide)⟩

theorem clampEntry_idem (limit : Fl) (p : K × Fl) :
    clampEntry limit (clampEntry limit p) = clampEntry limit p := by
  by_cases h : fgt p.2 limit = true
  · rw [show clampEntry limit p = (p.1, limit) from by rw [clampEntry, if_pos h]]
    rw [clampEntry, if_neg (by simp [fgt, flt_irrefl])]
  · rw [show clampEntry limit p = p from by rw [clampEntry, if_neg h]]
    rw [clampEntry, if_neg h]

theorem map_clampEntry_idem (limit : Fl) (l : List (K × Fl)) :
    (l.map (clampEntry limit)).map (clampEntry limit) = l.map (clampEntry limit) := by
  induction l with
  | nil => rfl
  | cons p rest ih => rw [List.map_cons, List.map_cons, clampEntry_idem, ih]

/-- C8: with a strictly positive limit, `clamp` succeeds, sets each weight
strictly above the limit to exactly the limit while leaving the others
unchanged, and is idempotent. -/
theorem C8_clamp {K : Type} [DecidableEq K] (ws : WeightedSet K) (limit : Fl)
    (hpos : fgt limit (Fl.fin 0) = true) :
    (ws.clamp limit).2 = none ∧
    (∀ k, (ws.clamp limit).1.getitem k =
      (ws.getitem k).map (fun w => if fgt w limit = true then limit else w)) ∧
    (ws.clamp limit).1.clamp limit = ((ws.clamp limit).1, none) := by
  obtain ⟨hz, hneg⟩ := guards_of_fgt_zero hpos
  have hclamp : ∀ t : WeightedSet K,
      t.clamp limit = (⟨t.weights.map (clampEntry limit)⟩, none) := fun t => by
    rw [WeightedSet.clamp, if_neg (by simp [hz]), if_neg (by simp [hneg])]
  refine ⟨by rw [hclamp], ?_, ?_⟩
  · intro k
    rw [hclamp]
    show lookupW (ws.weights.map (clampEntry limit)) k = _
    exact lookupW_clamp limit ws.weights k
  · rw [hclamp ws, hclamp]
    dsimp only
    rw [map_clampEntry_idem]

/-- Witness for `C8_clamp` at a concrete set and limit. -/
theorem C8_clamp_witness :
    ((⟨[("a", Fl.fin 7), ("b", Fl.fin 1)]⟩ : WeightedSet String).clamp
      (Fl.fin 5)).2 = none ∧
    ((⟨[("a", Fl.fin 7), ("b", Fl.fin 1)]⟩ : WeightedSet String).clamp
        (Fl.fin 5)).1.clamp (Fl.fin 5) =
      (((⟨[("a", Fl.fin 7), ("b", Fl.fin 1)]⟩ : WeightedSet String).clamp
        (Fl.fin 5)).1, none) :=
  ⟨(C8_clamp ⟨[("a", Fl.fin 7), ("b", Fl.fin 1)]⟩ (Fl.fin 5) (by decide)).1,
    (C8_clamp ⟨[("a", Fl.fin 7), ("b", Fl.fin 1)]⟩ (Fl.fin 5) (by decide)).2.2⟩

/-- C9: the self-merge `a.update(a)` on a set satisfying invariant I1 with
unique keys terminates normally (it iterates over the key-list snapshot
returned by `keys()`, not a live view) and exactly doubles every stored
weight: afterwards the key set is unchanged and every key `k` maps to the
float sum `w + w` of its previous weight `w` (absent keys stay absent). -/
theorem C9_self_update_doubles {K : Type} [DecidableEq K] (a : WeightedSet K)
    (hI : I1W a) (hnd : KeysNodup a) :
    (updateSelf a).2 = none ∧
    ∀ k : K, (updateSelf a).1.getitem k =
      (a.getitem k).map (fun w => fadd w w) := by
  rw [updateSelf]
  apply selfLoop_spec a hI a.keys (keys_nodup hnd)
    (fun k hk => keys_mem_iff.mp hk)
  intro k
  constructor
  · intro _
    rfl
  · intro hk
    have hnone : a.getitem k = none := by
      rw [WeightedSet.getitem, lookupW_eq_none_iff]
      exact fun hm => hk (keys_mem_iff.mpr hm)
    rw [hnone]
    rfl

/-- Witness for `C9_self_update_doubles` at a concrete two-key set. -/
theorem C9_self_update_doubles_witness :
    (updateSelf (⟨[("a", Fl.fin 1), ("b", Fl.fin 2)]⟩ : WeightedSet String)).2 = none ∧
    (updateSelf (⟨[("a", Fl.fin 1), ("b", Fl.fin 2)]⟩ : WeightedSet String)).1.getitem "a" =
      (((⟨[("a", Fl.fin 1), ("b", Fl.fin 2)]⟩ : WeightedSet String).getitem
        "a").map (fun w => fadd w w)) :=
  ⟨(C9_self_update_doubles ⟨[("a", Fl.fin 1), ("b", Fl.fin 2)]⟩
      (by decide) (by decide)).1,
    (C9_self_update_doubles ⟨[("a", Fl.fin 1), ("b", Fl.fin 2)]⟩
      (by decide) (by decide)).2 "a"⟩

/-- C10: `update` checks its arguments one at a time, each just before it is
merged: when the arguments are some well-formed weighted sets followed by a
non-WeightedSet argument, the call fails with the TypeMismatch error, but
the state at the raise is `self` with every earlier set already merged in —
the failure is not atomic with respect to the set's state. -/
theorem C10_update_lazy_typecheck {K : Type} [DecidableEq K]
    (self : WeightedSet K) (pres : List (WeightedSet K)) (rest : List (UpdArg K))
    (hI : ∀ o ∈ pres, I1W o) :
    self.update (pres.map UpdArg.ws ++ UpdArg.notWeightedSet :: rest) =
      (pres.foldl (fun s o => (mergeFrom s o).1) self, some Err.typeMismatch) := by
  induction pres generalizing self with
  | nil => rfl
  | cons o pres ih =>
      rw [List.map_cons, List.cons_append, WeightedSet.update, List.foldl_cons]
      have hok := mergeFrom_ok (hI o (List.mem_cons_self _ _)) self
      cases hm : mergeFrom self o with
      | mk s' e =>
          rw [hm] at hok
          subst hok
          dsimp only
          exact ih s' (fun o' ho' => hI o' (List.mem_cons_of_mem _ ho'))

/-- Witness for `C10_update_lazy_typecheck`: one valid set followed by a
non-WeightedSet argument; the merged state at the raise differs from the
pre-call state. -/
theorem C10_update_lazy_typecheck_witness :
    (⟨[("a", Fl.fin 1)]⟩ : WeightedSet String).update
        [UpdArg.ws ⟨[("b", Fl.fin 1)]⟩, UpdArg.notWeightedSet] =
      ([(⟨[("b", Fl.fin 1)]⟩ : WeightedSet String)].foldl
        (fun s o => (mergeFrom s o).1) ⟨[("a", Fl.fin 1)]⟩,
        some Err.typeMismatch) ∧
    ((⟨[("a", Fl.fin 1)]⟩ : WeightedSet String).update
        [UpdArg.ws ⟨[("b", Fl.fin 1)]⟩, UpdArg.notWeightedSet]).1 ≠
      ⟨[("a", Fl.fin 1)]⟩ :=
  ⟨C10_update_lazy_typecheck ⟨[("a", Fl.fin 1)]⟩ [⟨[("b", Fl.fin 1)]⟩] []
      (by decide),
    by decide⟩
